import Mathlib

/-
  Verification development for the knowledge-resolution pipeline of the
  Aarya AI chat application.  The pipeline is embedded shallowly: JS strings
  are modelled as `List Char`, the relevant JS string operations
  (toLowerCase, regex replacement, includes, split, trim, String.replace)
  are modelled as executable Lean functions, and the pipeline functions
  (`normalize`, `calculateScore`, `findBestResponse`,
  `processEmotionAndText`, `getGeminiResponse`, `getRandomDefaultResponse`,
  and the message-handling orchestration) are translated statement by
  statement from the source.  Character classes follow the ASCII semantics
  of the JS regexes involved: the word class of the regex escape for word
  characters is [A-Za-z0-9_], and the whitespace class is modelled by its
  ASCII members (space, tab, line feed, carriage return, vertical tab,
  form feed).  toLowerCase applies Unicode full lowercase mappings; the
  model covers the ASCII range A-Z together with U+212A KELVIN SIGN, the
  one code point outside the ASCII word class whose lowercase is an ASCII
  word character.  (U+0130 expands under the full mapping to a
  two-character sequence, which a character-to-character model cannot
  express and no claim needs.)  Every other dropped mapping sends a
  non-word character to a non-word character, and the punctuation
  replacement erases both alike, so normalize is unaffected.
-/

namespace Aarya

/-- The JS toLowerCase call, modelled on the ASCII range A-Z together with
U+212A KELVIN SIGN, whose Unicode lowercase is the ASCII letter k; this is
the only code point outside the ASCII word class whose lowercase is an
ASCII word character, so the remaining Unicode mappings (non-word to
non-word) are erased by the subsequent punctuation replacement either
way. -/
def toLowerAscii (c : Char) : Char :=
  if 65 ≤ c.toNat && c.toNat ≤ 90 then Char.ofNat (c.toNat + 32)
  else if c.toNat = 8490 then 'k'
  else c

/-- The regex word-character class [A-Za-z0-9_]. -/
def isWordCharB (c : Char) : Bool :=
  (97 ≤ c.toNat && c.toNat ≤ 122) || (65 ≤ c.toNat && c.toNat ≤ 90) ||
  (48 ≤ c.toNat && c.toNat ≤ 57) || c.toNat = 95

/-- The regex whitespace class, restricted to its ASCII members. -/
def isSpaceCharB (c : Char) : Bool :=
  c.toNat = 32 || c.toNat = 9 || c.toNat = 10 || c.toNat = 13 ||
  c.toNat = 11 || c.toNat = 12

/-- One character step of the replacement of every character that is neither
a word character nor whitespace by a space (the first replace call of
`normalize` in the source). -/
def replaceNonWord (c : Char) : Char :=
  if isWordCharB c || isSpaceCharB c then c else ' '

/-- Replacement of every maximal whitespace run by a single space (the
second replace call of `normalize` in the source). -/
def collapseSpaces : List Char → List Char
  | [] => []
  | [c] => if isSpaceCharB c then [' '] else [c]
  | c :: d :: rest =>
    if isSpaceCharB c then
      if isSpaceCharB d then collapseSpaces (d :: rest)
      else ' ' :: collapseSpaces (d :: rest)
    else c :: collapseSpaces (d :: rest)

/-- Removal of trailing whitespace (the tail half of the JS trim call). -/
def dropTrailingSpaces : List Char → List Char
  | [] => []
  | c :: rest =>
    match dropTrailingSpaces rest with
    | [] => if isSpaceCharB c then [] else [c]
    | r => c :: r

/-- The JS trim call: removal of leading and trailing whitespace. -/
def trimSpaces (l : List Char) : List Char :=
  dropTrailingSpaces (l.dropWhile isSpaceCharB)

/-- The normalize function of botBrain: lowercase, replace punctuation with
spaces, collapse whitespace runs, trim. -/
def normalize (text : List Char) : List Char :=
  trimSpaces (collapseSpaces ((text.map toLowerAscii).map replaceNonWord))

/-- The JS includes test: `pat` occurs as a contiguous substring. -/
def containsSub (pat : List Char) : List Char → Bool
  | [] => pat.isPrefixOf ([] : List Char)
  | c :: rest => pat.isPrefixOf (c :: rest) || containsSub pat rest

/-- The JS replace call with a plain-string pattern and empty replacement:
removes the first (leftmost) occurrence of `pat`, if any. -/
def removeFirst (pat : List Char) : List Char → List Char
  | [] => []
  | c :: rest =>
    if pat.isPrefixOf (c :: rest) then (c :: rest).drop pat.length
    else c :: removeFirst pat rest

/-- Word-boundary condition after an occurrence of `pat` at the head of
`l`: the following character, if any, is not a word character.  The
normalized keywords fed to the boundary test start and end with word
characters, so the regex boundary assertions reduce to the neighbouring
characters being non-word. -/
def boundaryOkAfter (pat l : List Char) : Bool :=
  match l.drop pat.length with
  | [] => true
  | c :: _ => !isWordCharB c

/-- Sliding scan for an occurrence of `pat` preceded by a non-word position
(start of string or a non-word character) and followed by a non-word
position. -/
def boundaryAux (pat : List Char) (prevIsWord : Bool) : List Char → Bool
  | [] => false
  | c :: rest =>
    (!prevIsWord && pat.isPrefixOf (c :: rest) && boundaryOkAfter pat (c :: rest)) ||
    boundaryAux pat (isWordCharB c) rest

/-- The word-boundary regex test built in `calculateScore` from a
normalized keyword. -/
def boundaryTest (pat input : List Char) : Bool :=
  boundaryAux pat false input

/-- Accumulator-based splitting on single space characters, modelling the
JS split call with a one-space separator (empty segments included). -/
def splitAux (acc : List Char) : List Char → List (List Char)
  | [] => [acc.reverse]
  | c :: rest => if c = ' ' then acc.reverse :: splitAux [] rest
                 else splitAux (c :: acc) rest

/-- The JS split call on a single-space separator. -/
def splitOnSpace (l : List Char) : List (List Char) :=
  splitAux [] l

/-- Score contributed by one non-empty normalized keyword through the
non-terminal tiers of `calculateScore`: word-boundary match, plain
substring match, then token-set intersection for multi-word keywords. -/
def scoreOfKeyword (normalizedInput nk : List Char) : Nat :=
  if boundaryTest nk normalizedInput then 20 + nk.length
  else if containsSub nk normalizedInput then 10 + nk.length
  else
    let keywordTokens := splitOnSpace nk
    if 1 < keywordTokens.length then
      let inputTokens := splitOnSpace normalizedInput
      if keywordTokens.all (fun t => inputTokens.contains t) then 5 + nk.length
      else 0
    else 0

/-- The keyword loop of `calculateScore`: skip keywords that normalize to
the empty string, return 100 immediately on an exact match, and otherwise
keep the maximum tier score seen so far. -/
def scoreLoop (normalizedInput : List Char) : List (List Char) → Nat → Nat
  | [], maxScore => maxScore
  | keyword :: rest, maxScore =>
    let nk := normalize keyword
    if nk = [] then scoreLoop normalizedInput rest maxScore
    else if normalizedInput = nk then 100
    else scoreLoop normalizedInput rest (Nat.max maxScore (scoreOfKeyword normalizedInput nk))

/-- The calculateScore function of botBrain. -/
def calculateScore (normalizedInput : List Char) (entryKeywords : List (List Char)) : Nat :=
  scoreLoop normalizedInput entryKeywords 0

/-- A knowledge-base entry as declared in types.ts. -/
structure KnowledgeEntry where
  id : Option (List Char)
  keywords : List (List Char)
  response : List Char
  topic : List Char
  matchCount : Option Nat

/-- The entry loop of `findBestResponse`: keep the best score and the
response of the entry that achieved it, updating only on a strict
improvement. -/
def bestLoop (normalizedInput : List Char) :
    List KnowledgeEntry → Nat → Option (List Char) → Nat × Option (List Char)
  | [], bestScore, bestResponse => (bestScore, bestResponse)
  | entry :: rest, bestScore, bestResponse =>
    let score := calculateScore normalizedInput entry.keywords
    if bestScore < score then bestLoop normalizedInput rest score (some entry.response)
    else bestLoop normalizedInput rest bestScore bestResponse

/-- The findBestResponse function of botBrain. -/
def findBestResponse (userInput : List Char) (knowledgeBase : List KnowledgeEntry) :
    Option (List Char) :=
  let normalizedInput := normalize userInput
  if normalizedInput = [] then none
  else
    let result := bestLoop normalizedInput knowledgeBase 0 none
    if 0 < result.1 then result.2 else none

/-- The four fixed default apology strings of botBrain. -/
def DEFAULT_RESPONSES : List (List Char) :=
  [("I\x27m not sure I understand. Can you teach me about that in the Training tab?").toList,
   ("That\x27s outside my current knowledge. Try adding it to my database!").toList,
   ("I don\x27t have a record for that yet. Please rephrase or update my training.").toList,
   ("My database doesn\x27t contain a match for that query.").toList]

/-- The getRandomDefaultResponse function of botBrain; the floor of the
uniform random draw scaled by the list length is modelled by the index
`r`, which ranges over the naturals below the list length. -/
def getRandomDefaultResponse (r : Nat) : List Char :=
  DEFAULT_RESPONSES.getD r []

def happyTag : List Char := ("[HAPPY]").toList
def sadTag : List Char := ("[SAD]").toList
def angryTag : List Char := ("[ANGRY]").toList
def surprisedTag : List Char := ("[SURPRISED]").toList
def thinkingTag : List Char := ("[THINKING]").toList
def neutralTag : List Char := ("[NEUTRAL]").toList
def concernedTag : List Char := ("[CONCERNED]").toList

/-- The processEmotionAndText function of the application component: an
else-if chain over includes tests in the order HAPPY, SAD, ANGRY,
SURPRISED, THINKING, NEUTRAL, each branch removing the first occurrence of
its tag, followed by a trim of the result. -/
def processEmotionAndText (fullText : List Char) : List Char :=
  let cleanText :=
    if containsSub happyTag fullText then removeFirst happyTag fullText
    else if containsSub sadTag fullText then removeFirst sadTag fullText
    else if containsSub angryTag fullText then removeFirst angryTag fullText
    else if containsSub surprisedTag fullText then removeFirst surprisedTag fullText
    else if containsSub thinkingTag fullText then removeFirst thinkingTag fullText
    else if containsSub neutralTag fullText then removeFirst neutralTag fullText
    else fullText
  trimSpaces cleanText

/-- The unconfigured-client reply returned by getGeminiResponse when no
credential is available. -/
def unconfiguredReply : List Char :=
  ("[SAD] I couldn\x27t find a local answer, and my connection to Gemini is not configured. Please click the Settings icon (gear) and add your Gemini API Key in the \x27Connections\x27 tab.").toList

/-- The substitute reply returned when the service resolves with empty or
missing text. -/
def emptyServiceReply : List Char :=
  ("[NEUTRAL] I\x27m having trouble thinking of a response right now.").toList

/-- The reply returned from the internal catch block of getGeminiResponse
when the service call throws. -/
def serviceErrorReply : List Char :=
  ("[SAD] I\x27m having trouble connecting to my cloud brain right now. Please check your internet connection or API Key.").toList

/-- Outcome of the external generateContent call: a response carrying text
(the empty list models missing or empty text, both falsy in JS), or a
thrown error. -/
inductive ServiceOutcome where
  | ok (text : List Char)
  | err
deriving DecidableEq

/-- The getGeminiResponse function of the gemini service.  An async JS
function resolves (ok) on every return path and rejects (error) only on an
uncaught throw; the source returns on every path, so every branch is ok.
`configured` models whether the client is non-null after the late
initialization attempt. -/
def getGeminiResponse (configured : Bool) (outcome : ServiceOutcome) :
    Except (List Char) (List Char) :=
  if !configured then Except.ok unconfiguredReply
  else
    match outcome with
    | ServiceOutcome.ok text =>
      Except.ok (if text = [] then emptyServiceReply else text)
    | ServiceOutcome.err => Except.ok serviceErrorReply

/-- JS truthiness of a value of type string-or-null: null and the empty
string are falsy. -/
def jsTruthyStr (v : Option (List Char)) : Bool :=
  match v with
  | none => false
  | some s => !(s = [])

/-- Outcome of the awaited fallback call as seen by the orchestrator's
try block: a resolved raw reply, or a rejection. -/
inductive FallbackResult where
  | resolved (raw : List Char)
  | rejected
deriving DecidableEq

/-- Number of fallback-responder invocations performed by handleUserMessage
for one utterance: the local-match branch is taken when the local match is
truthy and performs none; the else branch awaits getGeminiResponse exactly
once (on both its success and its catch path). -/
def fallbackCallCount (text : List Char) (knowledgeBase : List KnowledgeEntry) : Nat :=
  if jsTruthyStr (findBestResponse text knowledgeBase) then 0 else 1

/-- The bot-message text produced by handleUserMessage: the local match
when truthy; otherwise the tag-stripped fallback reply on resolution, or a
random default response (index `r`) on rejection. -/
def resolveUserMessage (text : List Char) (knowledgeBase : List KnowledgeEntry)
    (fallback : FallbackResult) (r : Nat) : List Char :=
  let localMatch := findBestResponse text knowledgeBase
  if jsTruthyStr localMatch then localMatch.getD []
  else
    match fallback with
    | FallbackResult.resolved raw => processEmotionAndText raw
    | FallbackResult.rejected => getRandomDefaultResponse r

/- Helper lemmas shared by several claims. -/

/-- The local matcher returns none as soon as the input normalizes to the
empty string. -/
theorem findBestResponse_of_normalize_nil (q : List Char) (K : List KnowledgeEntry)
    (h : normalize q = []) : findBestResponse q K = none := by
  simp [findBestResponse, h]

/-- Score of one entry against a normalized input. -/
def entryScore (normalizedInput : List Char) (entry : KnowledgeEntry) : Nat :=
  calculateScore normalizedInput entry.keywords

/-- Highest entry score over a knowledge base. -/
def bestScoreOf (normalizedInput : List Char) (knowledgeBase : List KnowledgeEntry) : Nat :=
  (knowledgeBase.map (entryScore normalizedInput)).foldr Nat.max 0

/-- The first entry of the base (in supplied order) attaining a given
score. -/
def firstEntryWithScore (normalizedInput : List Char) (knowledgeBase : List KnowledgeEntry)
    (s : Nat) : Option KnowledgeEntry :=
  knowledgeBase.find? (fun entry => entryScore normalizedInput entry == s)

/-- The best score tracked by the entry loop is the maximum of its
accumulator and the best entry score of the remaining list. -/
theorem bestLoop_fst (input : List Char) :
    ∀ (K : List KnowledgeEntry) (b : Nat) (r : Option (List Char)),
      (bestLoop input K b r).1 = Nat.max b (bestScoreOf input K) := by
  intro K
  induction K with
  | nil => intro b r; simp [bestLoop, bestScoreOf]
  | cons e rest ih =>
    intro b r
    have hcons : bestScoreOf input (e :: rest) =
        Nat.max (calculateScore input e.keywords) (bestScoreOf input rest) := by
      simp [bestScoreOf, entryScore]
    by_cases hb : b < calculateScore input e.keywords
    · have hstep : bestLoop input (e :: rest) b r =
          bestLoop input rest (calculateScore input e.keywords) (some e.response) := by
        simp [bestLoop, hb]
      rw [hstep, ih, hcons]
      simp only [Nat.max_def]
      split_ifs <;> omega
    · have hstep : bestLoop input (e :: rest) b r = bestLoop input rest b r := by
        simp [bestLoop, hb]
      rw [hstep, ih, hcons]
      simp only [Nat.max_def]
      split_ifs <;> omega

/-- Skipping an entry whose score differs from the target keeps the first
matching entry unchanged. -/
theorem firstEntry_cons_ne (input : List Char) (e : KnowledgeEntry)
    (rest : List KnowledgeEntry) (m : Nat) (h : entryScore input e ≠ m) :
    firstEntryWithScore input (e :: rest) m = firstEntryWithScore input rest m := by
  unfold firstEntryWithScore
  rw [List.find?_cons_of_neg]
  simpa using h

/-- An entry whose score equals the target is the first matching entry of
any base beginning with it. -/
theorem firstEntry_cons_eq (input : List Char) (e : KnowledgeEntry)
    (rest : List KnowledgeEntry) (m : Nat) (h : entryScore input e = m) :
    firstEntryWithScore input (e :: rest) m = some e := by
  unfold firstEntryWithScore
  rw [List.find?_cons_of_pos]
  simpa using h

/-- The response tracked by the entry loop: when some entry beats the
accumulator the loop ends with the response of the first entry attaining
the list's best score, and otherwise the loop leaves the accumulator
response untouched. -/
theorem bestLoop_snd (input : List Char) :
    ∀ (K : List KnowledgeEntry) (b : Nat) (r : Option (List Char)),
      (bestLoop input K b r).2 =
        if b < bestScoreOf input K
        then Option.map KnowledgeEntry.response
          (firstEntryWithScore input K (bestScoreOf input K))
        else r := by
  intro K
  induction K with
  | nil => intro b r; simp [bestLoop, bestScoreOf]
  | cons e rest ih =>
    intro b r
    have hcons : bestScoreOf input (e :: rest) =
        Nat.max (calculateScore input e.keywords) (bestScoreOf input rest) := by
      simp [bestScoreOf, entryScore]
    by_cases hb : b < calculateScore input e.keywords
    · have hstep : bestLoop input (e :: rest) b r =
          bestLoop input rest (calculateScore input e.keywords) (some e.response) := by
        simp [bestLoop, hb]
      rw [hstep, ih, hcons]
      by_cases hs : calculateScore input e.keywords < bestScoreOf input rest
      · rw [if_pos hs,
          if_pos (show b < Nat.max (calculateScore input e.keywords)
            (bestScoreOf input rest) by simp only [Nat.max_def]; split_ifs <;> omega),
          show Nat.max (calculateScore input e.keywords) (bestScoreOf input rest) =
            bestScoreOf input rest by simp only [Nat.max_def]; split_ifs <;> omega,
          firstEntry_cons_ne input e rest _ (by simp only [entryScore]; omega)]
      · rw [if_neg hs,
          if_pos (show b < Nat.max (calculateScore input e.keywords)
            (bestScoreOf input rest) by simp only [Nat.max_def]; split_ifs <;> omega),
          show Nat.max (calculateScore input e.keywords) (bestScoreOf input rest) =
            calculateScore input e.keywords by simp only [Nat.max_def]; split_ifs <;> omega,
          firstEntry_cons_eq input e rest (calculateScore input e.keywords) rfl]
        rfl
    · have hstep : bestLoop input (e :: rest) b r = bestLoop input rest b r := by
        simp [bestLoop, hb]
      rw [hstep, ih, hcons]
      by_cases hbM : b < bestScoreOf input rest
      · rw [if_pos hbM,
          if_pos (show b < Nat.max (calculateScore input e.keywords)
            (bestScoreOf input rest) by simp only [Nat.max_def]; split_ifs <;> omega),
          show Nat.max (calculateScore input e.keywords) (bestScoreOf input rest) =
            bestScoreOf input rest by simp only [Nat.max_def]; split_ifs <;> omega,
          firstEntry_cons_ne input e rest _ (by simp only [entryScore]; omega)]
      · rw [if_neg hbM,
          if_neg (show ¬ b < Nat.max (calculateScore input e.keywords)
            (bestScoreOf input rest) by simp only [Nat.max_def]; split_ifs <;> omega)]

/- Normalizer output properties, used for the algebraic claim about
normalize. -/

/-- The character class of normalized output: lowercase letters, digits,
underscore, and the space character. -/
def isNormalOutputChar (c : Char) : Bool :=
  (97 ≤ c.toNat && c.toNat ≤ 122) || (48 ≤ c.toNat && c.toNat ≤ 57) ||
  c.toNat = 95 || c.toNat = 32

/-- Word characters that are not uppercase letters. -/
def isLowerWordChar (c : Char) : Bool :=
  (97 ≤ c.toNat && c.toNat ≤ 122) || (48 ≤ c.toNat && c.toNat ≤ 57) || c.toNat = 95

/-- Absence of two consecutive space characters. -/
def noDoubleSpace : List Char → Bool
  | [] => true
  | [_] => true
  | a :: b :: rest => !(a = ' ' && b = ' ') && noDoubleSpace (b :: rest)

/-- The first character, if any, is not whitespace. -/
def headNotSpace : List Char → Bool
  | [] => true
  | c :: _ => !isSpaceCharB c

/-- The last character, if any, is not whitespace. -/
def lastNotSpace : List Char → Bool
  | [] => true
  | [c] => !isSpaceCharB c
  | _ :: rest => lastNotSpace rest

/-- Characters are determined by their code points. -/
theorem char_eq_of_toNat (a b : Char) (h : a.toNat = b.toNat) : a = b :=
  Char.eq_of_val_eq (UInt32.ext h)

/-- Code point of a character built from a lowercase-letter code. -/
theorem toNat_ofNat_lower (n : Nat) (h1 : 97 ≤ n) (h2 : n ≤ 122) :
    (Char.ofNat n).toNat = n := by
  have hv : n.isValidChar := Or.inl (by omega)
  simp [Char.ofNat, hv, Char.ofNatAux, Char.toNat, UInt32.ofNat', UInt32.toNat]

/-- Lowercasing never outputs an uppercase ASCII letter. -/
theorem toLowerAscii_not_upper (a : Char) :
    ¬(65 ≤ (toLowerAscii a).toNat ∧ (toLowerAscii a).toNat ≤ 90) := by
  unfold toLowerAscii
  by_cases h : (65 ≤ a.toNat && a.toNat ≤ 90) = true
  · rw [if_pos h]
    simp only [Bool.and_eq_true, decide_eq_true_eq] at h
    rw [toNat_ofNat_lower (a.toNat + 32) (by omega) (by omega)]
    omega
  · rw [if_neg h]
    by_cases hk : a.toNat = 8490
    · rw [if_pos hk]
      decide
    · rw [if_neg hk]
      simp only [Bool.and_eq_true, decide_eq_true_eq, not_and, Nat.not_le] at h
      omega

/-- Each character of the lowercased, punctuation-replaced text is a
lowercase word character or whitespace. -/
theorem replace_toLower_class (a : Char) :
    isLowerWordChar (replaceNonWord (toLowerAscii a)) = true ∨
    isSpaceCharB (replaceNonWord (toLowerAscii a)) = true := by
  unfold replaceNonWord
  by_cases h : (isWordCharB (toLowerAscii a) || isSpaceCharB (toLowerAscii a)) = true
  · rw [if_pos h]
    rcases Bool.or_eq_true_iff.mp h with hw | hs
    · left
      have hnu := toLowerAscii_not_upper a
      simp only [isWordCharB, Bool.or_eq_true, Bool.and_eq_true, decide_eq_true_eq] at hw
      simp only [isLowerWordChar, Bool.or_eq_true, Bool.and_eq_true, decide_eq_true_eq]
      omega
    · right; exact hs
  · rw [if_neg h]
    right; decide

/-- Every character of a collapse result is the space character or a
non-whitespace character of the argument. -/
theorem mem_collapseSpaces : ∀ (l : List Char), ∀ c ∈ collapseSpaces l,
    c = ' ' ∨ (c ∈ l ∧ isSpaceCharB c = false) := by
  intro l
  induction l with
  | nil => intro c hc; simp [collapseSpaces] at hc
  | cons a tail ih =>
    cases tail with
    | nil =>
      intro c hc
      by_cases ha : isSpaceCharB a = true
      · left
        simpa [collapseSpaces, ha] using hc
      · right
        simp [collapseSpaces, ha] at hc
        subst hc
        exact ⟨by simp, by simpa using ha⟩
    | cons d rest =>
      intro c hc
      by_cases ha : isSpaceCharB a = true
      · by_cases hd : isSpaceCharB d = true
        · have heq : collapseSpaces (a :: d :: rest) = collapseSpaces (d :: rest) := by
            simp [collapseSpaces, ha, hd]
          rw [heq] at hc
          rcases ih c hc with h | ⟨hm, hs⟩
          · exact Or.inl h
          · exact Or.inr ⟨List.mem_cons_of_mem a hm, hs⟩
        · have heq : collapseSpaces (a :: d :: rest) = ' ' :: collapseSpaces (d :: rest) := by
            simp [collapseSpaces, ha, hd]
          rw [heq] at hc
          rcases List.mem_cons.mp hc with h | h
          · exact Or.inl h
          · rcases ih c h with h2 | ⟨hm, hs⟩
            · exact Or.inl h2
            · exact Or.inr ⟨List.mem_cons_of_mem a hm, hs⟩
      · have heq : collapseSpaces (a :: d :: rest) = a :: collapseSpaces (d :: rest) := by
          simp [collapseSpaces, ha]
        rw [heq] at hc
        rcases List.mem_cons.mp hc with h | h
        · subst h
          exact Or.inr ⟨by simp, by simpa using ha⟩
        · rcases ih c h with h2 | ⟨hm, hs⟩
          · exact Or.inl h2
          · exact Or.inr ⟨List.mem_cons_of_mem a hm, hs⟩

/-- Collapse commutes with a non-whitespace head. -/
theorem collapseSpaces_cons_nonspace (d : Char) (rest : List Char)
    (h : isSpaceCharB d = false) :
    collapseSpaces (d :: rest) = d :: collapseSpaces rest := by
  cases rest with
  | nil => simp [collapseSpaces, h]
  | cons e rest2 => simp [collapseSpaces, h]

/-- Tails inherit the no-double-space property. -/
theorem noDoubleSpace_tail (a : Char) (l : List Char)
    (h : noDoubleSpace (a :: l) = true) : noDoubleSpace l = true := by
  cases l with
  | nil => rfl
  | cons b t =>
    simp only [noDoubleSpace, Bool.and_eq_true] at h
    exact h.2

/-- Prepending a non-space character preserves the no-double-space
property. -/
theorem noDoubleSpace_cons_of_ne (a : Char) (l : List Char) (ha : a ≠ ' ')
    (hl : noDoubleSpace l = true) : noDoubleSpace (a :: l) = true := by
  cases l with
  | nil => rfl
  | cons b t =>
    simp only [noDoubleSpace, Bool.and_eq_true]
    exact ⟨by simp [ha], hl⟩

/-- Prepending a space before a non-space head preserves the
no-double-space property. -/
theorem noDoubleSpace_space_cons (d : Char) (t : List Char) (hd : d ≠ ' ')
    (h : noDoubleSpace (d :: t) = true) : noDoubleSpace (' ' :: d :: t) = true := by
  simp only [noDoubleSpace, Bool.and_eq_true]
  exact ⟨by simp [hd], h⟩

/-- Collapsed text never holds two consecutive spaces. -/
theorem noDoubleSpace_collapse : ∀ l : List Char,
    noDoubleSpace (collapseSpaces l) = true := by
  intro l
  induction l with
  | nil => rfl
  | cons a tail ih =>
    cases tail with
    | nil =>
      by_cases ha : isSpaceCharB a = true <;> simp [collapseSpaces, ha, noDoubleSpace]
    | cons d rest =>
      by_cases ha : isSpaceCharB a = true
      · by_cases hd : isSpaceCharB d = true
        · have heq : collapseSpaces (a :: d :: rest) = collapseSpaces (d :: rest) := by
            simp [collapseSpaces, ha, hd]
          rw [heq]; exact ih
        · have hd2 : isSpaceCharB d = false := by simpa using hd
          have heq : collapseSpaces (a :: d :: rest) = ' ' :: collapseSpaces (d :: rest) := by
            simp [collapseSpaces, ha, hd]
          have hdne : d ≠ ' ' := fun hcontra => by
            subst hcontra; exact absurd hd2 (by decide)
          rw [heq, collapseSpaces_cons_nonspace d rest hd2]
          apply noDoubleSpace_space_cons d _ hdne
          rw [← collapseSpaces_cons_nonspace d rest hd2]
          exact ih
      · have ha2 : isSpaceCharB a = false := by simpa using ha
        have heq : collapseSpaces (a :: d :: rest) = a :: collapseSpaces (d :: rest) := by
          simp [collapseSpaces, ha]
        have hane : a ≠ ' ' := fun hcontra => by
          subst hcontra; exact absurd ha2 (by decide)
        rw [heq]
        exact noDoubleSpace_cons_of_ne a _ hane ih

/-- The no-double-space property restricts to left parts of appends. -/
theorem noDoubleSpace_append_left : ∀ (l₁ l₂ : List Char),
    noDoubleSpace (l₁ ++ l₂) = true → noDoubleSpace l₁ = true := by
  intro l₁
  induction l₁ with
  | nil => intro l₂ _; rfl
  | cons a tail ih =>
    intro l₂ h
    cases tail with
    | nil => rfl
    | cons b t =>
      simp only [List.cons_append, noDoubleSpace, Bool.and_eq_true] at h ⊢
      exact ⟨h.1, ih l₂ (by simpa using h.2)⟩

/-- The no-double-space property restricts to right parts of appends. -/
theorem noDoubleSpace_append_right : ∀ (l₁ l₂ : List Char),
    noDoubleSpace (l₁ ++ l₂) = true → noDoubleSpace l₂ = true := by
  intro l₁
  induction l₁ with
  | nil => intro l₂ h; simpa using h
  | cons a tail ih =>
    intro l₂ h
    exact ih l₂ (noDoubleSpace_tail a _ (by simpa using h))

/-- Removing trailing whitespace keeps an initial segment of the list. -/
theorem dropTrailing_append : ∀ l : List Char, ∃ t, dropTrailingSpaces l ++ t = l := by
  intro l
  induction l with
  | nil => exact ⟨[], rfl⟩
  | cons c rest ih =>
    cases hdt : dropTrailingSpaces rest with
    | nil =>
      by_cases hc : isSpaceCharB c = true
      · exact ⟨c :: rest, by simp [dropTrailingSpaces, hdt, hc]⟩
      · exact ⟨rest, by simp [dropTrailingSpaces, hdt, hc]⟩
    | cons x xs =>
      obtain ⟨t, ht⟩ := ih
      rw [hdt] at ht
      refine ⟨t, ?_⟩
      have heq : dropTrailingSpaces (c :: rest) = c :: x :: xs := by
        simp [dropTrailingSpaces, hdt]
      rw [heq, List.cons_append, ht]

/-- Trimming keeps only characters of the argument. -/
theorem mem_trimSpaces (l : List Char) (c : Char) (h : c ∈ trimSpaces l) : c ∈ l := by
  unfold trimSpaces at h
  obtain ⟨t, ht⟩ := dropTrailing_append (l.dropWhile isSpaceCharB)
  have h2 : c ∈ l.dropWhile isSpaceCharB := by
    rw [← ht]
    exact List.mem_append_left t h
  have h3 : c ∈ l.takeWhile isSpaceCharB ++ l.dropWhile isSpaceCharB :=
    List.mem_append_right _ h2
  rwa [List.takeWhile_append_dropWhile] at h3

/-- Trimming preserves the no-double-space property. -/
theorem noDoubleSpace_trimSpaces (l : List Char) (h : noDoubleSpace l = true) :
    noDoubleSpace (trimSpaces l) = true := by
  unfold trimSpaces
  have h1 : noDoubleSpace (l.dropWhile isSpaceCharB) = true := by
    apply noDoubleSpace_append_right (l.takeWhile isSpaceCharB)
    rwa [List.takeWhile_append_dropWhile]
  obtain ⟨t, ht⟩ := dropTrailing_append (l.dropWhile isSpaceCharB)
  apply noDoubleSpace_append_left _ t
  rw [ht]
  exact h1

/-- Dropping leading whitespace leaves a non-whitespace head. -/
theorem headNotSpace_dropWhile : ∀ l : List Char,
    headNotSpace (l.dropWhile isSpaceCharB) = true := by
  intro l
  induction l with
  | nil => rfl
  | cons c rest ih =>
    by_cases hc : isSpaceCharB c = true
    · simpa [List.dropWhile, hc] using ih
    · simp [List.dropWhile, hc, headNotSpace]

/-- Removing trailing whitespace preserves a non-whitespace head. -/
theorem dropTrailing_headNotSpace : ∀ l : List Char, headNotSpace l = true →
    headNotSpace (dropTrailingSpaces l) = true := by
  intro l h
  cases l with
  | nil => rfl
  | cons c rest =>
    cases hdt : dropTrailingSpaces rest with
    | nil =>
      by_cases hc : isSpaceCharB c = true
      · simp [dropTrailingSpaces, hdt, hc, headNotSpace]
      · simp [dropTrailingSpaces, hdt, hc, headNotSpace]
    | cons x xs =>
      simp [dropTrailingSpaces, hdt, headNotSpace]
      simpa [headNotSpace] using h

/-- Removing trailing whitespace leaves a non-whitespace last character. -/
theorem lastNotSpace_dropTrailing : ∀ l : List Char,
    lastNotSpace (dropTrailingSpaces l) = true := by
  intro l
  induction l with
  | nil => rfl
  | cons c rest ih =>
    cases hdt : dropTrailingSpaces rest with
    | nil =>
      by_cases hc : isSpaceCharB c = true
      · simp [dropTrailingSpaces, hdt, hc, lastNotSpace]
      · simp [dropTrailingSpaces, hdt, hc, lastNotSpace]
    | cons x xs =>
      have heq : dropTrailingSpaces (c :: rest) = c :: x :: xs := by
        simp [dropTrailingSpaces, hdt]
      rw [heq]
      have hstep : lastNotSpace (c :: x :: xs) = lastNotSpace (x :: xs) := rfl
      rw [hstep, ← hdt]
      exact ih

/-- A map whose function fixes every element of a list fixes the list. -/
theorem map_fix (f : Char → Char) : ∀ l : List Char, (∀ c ∈ l, f c = c) → l.map f = l := by
  intro l
  induction l with
  | nil => intro _; rfl
  | cons c rest ih =>
    intro h
    simp only [List.map_cons]
    rw [h c (by simp), ih (fun x hx => h x (by simp [hx]))]

/-- Normalized-output characters are unchanged by lowercasing. -/
theorem toLowerAscii_fix (c : Char) (h : isNormalOutputChar c = true) :
    toLowerAscii c = c := by
  simp only [isNormalOutputChar, Bool.or_eq_true, Bool.and_eq_true, decide_eq_true_eq] at h
  have hcond : (65 ≤ c.toNat && c.toNat ≤ 90) = false := by
    simp only [Bool.and_eq_false_iff, decide_eq_false_iff_not, Nat.not_le]
    omega
  have hk : ¬(c.toNat = 8490) := by omega
  unfold toLowerAscii
  rw [hcond]
  simp [hk]

/-- Normalized-output characters are unchanged by punctuation
replacement. -/
theorem replaceNonWord_fix (c : Char) (h : isNormalOutputChar c = true) :
    replaceNonWord c = c := by
  have hcond : (isWordCharB c || isSpaceCharB c) = true := by
    simp only [isNormalOutputChar, Bool.or_eq_true, Bool.and_eq_true, decide_eq_true_eq] at h
    simp only [isWordCharB, isSpaceCharB, Bool.or_eq_true, Bool.and_eq_true, decide_eq_true_eq]
    omega
  unfold replaceNonWord
  rw [hcond]
  simp

/-- The only whitespace character in the normalized-output class is the
space itself. -/
theorem space_char_eq (c : Char) (hn : isNormalOutputChar c = true)
    (hs : isSpaceCharB c = true) : c = ' ' := by
  apply char_eq_of_toNat
  have h32 : (' ' : Char).toNat = 32 := rfl
  rw [h32]
  simp only [isNormalOutputChar, Bool.or_eq_true, Bool.and_eq_true, decide_eq_true_eq] at hn
  simp only [isSpaceCharB, Bool.or_eq_true, decide_eq_true_eq] at hs
  omega

/-- Collapse fixes text whose characters are normalized-output characters
with no two consecutive spaces. -/
theorem collapse_fix : ∀ l : List Char, (∀ c ∈ l, isNormalOutputChar c = true) →
    noDoubleSpace l = true → collapseSpaces l = l := by
  intro l
  induction l with
  | nil => intro _ _; rfl
  | cons a tail ih =>
    intro hchars hnd
    cases tail with
    | nil =>
      by_cases ha : isSpaceCharB a = true
      · have ha' : a = ' ' := space_char_eq a (hchars a (by simp)) ha
        subst ha'
        decide
      · simp [collapseSpaces, ha]
    | cons d rest =>
      have hnd1 : noDoubleSpace (d :: rest) = true := noDoubleSpace_tail a _ hnd
      have ihres : collapseSpaces (d :: rest) = d :: rest :=
        ih (fun x hx => hchars x (List.mem_cons_of_mem a hx)) hnd1
      by_cases ha : isSpaceCharB a = true
      · have ha' : a = ' ' := space_char_eq a (hchars a (by simp)) ha
        by_cases hd : isSpaceCharB d = true
        · have hd' : d = ' ' := space_char_eq d (hchars d (by simp)) hd
          exfalso
          subst ha'
          subst hd'
          simp [noDoubleSpace] at hnd
        · have heq : collapseSpaces (a :: d :: rest) = ' ' :: collapseSpaces (d :: rest) := by
            simp [collapseSpaces, ha, hd]
          rw [heq, ihres, ha']
      · have heq : collapseSpaces (a :: d :: rest) = a :: collapseSpaces (d :: rest) := by
          simp [collapseSpaces, ha]
        rw [heq, ihres]

/-- Dropping leading whitespace fixes text with a non-whitespace head. -/
theorem dropWhile_fix (l : List Char) (h : headNotSpace l = true) :
    l.dropWhile isSpaceCharB = l := by
  cases l with
  | nil => rfl
  | cons c rest =>
    have hc : isSpaceCharB c = false := by simpa [headNotSpace] using h
    simp [List.dropWhile, hc]

/-- Removing trailing whitespace fixes text with a non-whitespace last
character. -/
theorem dropTrailing_fix : ∀ l : List Char, lastNotSpace l = true →
    dropTrailingSpaces l = l := by
  intro l
  induction l with
  | nil => intro _; rfl
  | cons c rest ih =>
    intro h
    cases rest with
    | nil =>
      have hc : isSpaceCharB c = false := by simpa [lastNotSpace] using h
      simp [dropTrailingSpaces, hc]
    | cons x xs =>
      have h2 : lastNotSpace (x :: xs) = true := h
      have ihres : dropTrailingSpaces (x :: xs) = x :: xs := ih h2
      rw [show dropTrailingSpaces (c :: x :: xs) =
            (match dropTrailingSpaces (x :: xs) with
             | [] => if isSpaceCharB c then [] else [c]
             | r => c :: r) from rfl, ihres]

/-- Trimming fixes text with non-whitespace first and last characters. -/
theorem trimSpaces_fix (l : List Char) (hh : headNotSpace l = true)
    (hl : lastNotSpace l = true) : trimSpaces l = l := by
  unfold trimSpaces
  rw [dropWhile_fix l hh, dropTrailing_fix l hl]

/-- Every character of a normalized string is a lowercase letter, digit,
underscore or space. -/
theorem normalize_chars (s : List Char) : ∀ c ∈ normalize s, isNormalOutputChar c = true := by
  intro c hc
  unfold normalize at hc
  have h1 := mem_trimSpaces _ c hc
  rcases mem_collapseSpaces _ c h1 with h | ⟨hm, hs⟩
  · subst h; decide
  · simp only [List.mem_map] at hm
    obtain ⟨b, hb, rfl⟩ := hm
    obtain ⟨a, ha, rfl⟩ := hb
    rcases replace_toLower_class a with h2 | h2
    · simp only [isLowerWordChar, Bool.or_eq_true, Bool.and_eq_true, decide_eq_true_eq] at h2
      simp only [isNormalOutputChar, Bool.or_eq_true, Bool.and_eq_true, decide_eq_true_eq]
      omega
    · simp [h2] at hs

/-- A normalized string holds no two consecutive spaces. -/
theorem normalize_noDoubleSpace (s : List Char) : noDoubleSpace (normalize s) = true := by
  unfold normalize
  exact noDoubleSpace_trimSpaces _ (noDoubleSpace_collapse _)

/-- A normalized string does not start with whitespace. -/
theorem normalize_headNotSpace (s : List Char) : headNotSpace (normalize s) = true := by
  unfold normalize trimSpaces
  exact dropTrailing_headNotSpace _ (headNotSpace_dropWhile _)

/-- A normalized string does not end with whitespace. -/
theorem normalize_lastNotSpace (s : List Char) : lastNotSpace (normalize s) = true := by
  unfold normalize trimSpaces
  exact lastNotSpace_dropTrailing _

/-- Normalization is idempotent. -/
theorem normalize_idempotent (s : List Char) : normalize (normalize s) = normalize s := by
  have hchars := normalize_chars s
  rw [show normalize (normalize s) =
      trimSpaces (collapseSpaces (((normalize s).map toLowerAscii).map replaceNonWord))
    from rfl]
  rw [map_fix toLowerAscii _ (fun c hc => toLowerAscii_fix c (hchars c hc)),
    map_fix replaceNonWord _ (fun c hc => replaceNonWord_fix c (hchars c hc)),
    collapse_fix _ hchars (normalize_noDoubleSpace s),
    trimSpaces_fix _ (normalize_headNotSpace s) (normalize_lastNotSpace s)]

/- Claim theorems. -/

/-- C1, counterexample: the tag CONCERNED, claimed to be among the seven
recognized tags, is not stripped by the parser: processing the string made
of that tag and a following word returns the string with the tag still
present rather than the bare word. -/
theorem C1_counterexample :
    processEmotionAndText (("[CONCERNED] hello").toList) ≠ ("hello").toList := by
  decide

/-- C1 (amended): the parser recognizes exactly six tags (NEUTRAL, HAPPY,
SAD, ANGRY, SURPRISED, THINKING) — not CONCERNED — anywhere in the string,
removes the first occurrence of the first tag found and trims the result,
returning text only (no emotion value is produced); for each of the six
tags, processing the tag followed by a space and a word yields the bare
word; when no recognized tag is present the text is returned unchanged
apart from trimming; and a tag in the middle of the string is removed as
well, so recognition is not restricted to the start of the string. -/
theorem C1_tag_stripping :
    (∀ tag ∈ [neutralTag, happyTag, sadTag, angryTag, surprisedTag, thinkingTag],
      processEmotionAndText (tag ++ (" hello").toList) = ("hello").toList) ∧
    (∀ s : List Char,
      (∀ tag ∈ [happyTag, sadTag, angryTag, surprisedTag, thinkingTag, neutralTag],
        containsSub tag s = false) →
      processEmotionAndText s = trimSpaces s) ∧
    processEmotionAndText (("well [HAPPY] yes").toList) = ("well  yes").toList := by
  refine ⟨by decide, ?_, by decide⟩
  intro s h
  have h1 := h happyTag (by simp)
  have h2 := h sadTag (by simp)
  have h3 := h angryTag (by simp)
  have h4 := h surprisedTag (by simp)
  have h5 := h thinkingTag (by simp)
  have h6 := h neutralTag (by simp)
  simp [processEmotionAndText, h1, h2, h3, h4, h5, h6]

/-- C1, witness for the amended statement at concrete inputs. -/
theorem C1_witness :
    processEmotionAndText (happyTag ++ (" hello").toList) = ("hello").toList ∧
    processEmotionAndText (("hey there").toList) = trimSpaces (("hey there").toList) :=
  ⟨C1_tag_stripping.1 happyTag (by decide),
   C1_tag_stripping.2.1 (("hey there").toList) (by decide)⟩

/-- C2, counterexample: the scorer gives 12, not 0, for the input about
hiking with the single keyword hi: the word-boundary tier does not fire
but the plain-substring tier does. -/
theorem C2_counterexample :
    calculateScore (("hike up the hill").toList) [("hi").toList] = 12 ∧
    calculateScore (("hike up the hill").toList) [("hi").toList] ≠ 0 := by
  decide

/-- C2 (amended): for the input about hiking and keyword hi, the
word-boundary test fails but the keyword is a plain substring (inside the
word hike), so the score is 12 = 10 + 2 from the substring tier; for the
greeting input the word-boundary tier fires and the score is 22 = 20 + 2. -/
theorem C2_scores :
    calculateScore (("hike up the hill").toList) [("hi").toList] = 12 ∧
    boundaryTest (("hi").toList) (("hike up the hill").toList) = false ∧
    containsSub (("hi").toList) (("hike up the hill").toList) = true ∧
    calculateScore (("hi there").toList) [("hi").toList] = 22 ∧
    boundaryTest (("hi").toList) (("hi there").toList) = true := by
  decide

/-- C3, counterexample: the score is 23, not 22: the normalized keyword
has 18 characters (including the inner space), so the token-intersection
tier yields 5 + 18. -/
theorem C3_counterexample :
    calculateScore (("what is the subscription price").toList)
      [("price subscription").toList] = 23 ∧
    calculateScore (("what is the subscription price").toList)
      [("price subscription").toList] ≠ 22 := by
  decide

/-- C3 (amended): for the two-word pricing keyword against the reordered
query, neither the word-boundary tier nor the plain-substring tier fires
(no contiguous occurrence of the phrase is present), every keyword token
occurs among the input tokens, and the score is 23 = 5 + 18 where 18 is
the length of the normalized keyword. -/
theorem C3_token_tier :
    calculateScore (("what is the subscription price").toList)
      [("price subscription").toList] = 23 ∧
    normalize (("price subscription").toList) = ("price subscription").toList ∧
    (("price subscription").toList).length = 18 ∧
    boundaryTest (("price subscription").toList)
      (("what is the subscription price").toList) = false ∧
    containsSub (("price subscription").toList)
      (("what is the subscription price").toList) = false ∧
    (splitOnSpace (("price subscription").toList)).all
      (fun t => (splitOnSpace (("what is the subscription price").toList)).contains t)
      = true := by
  decide

/-- An entry whose response is the empty string, used to exhibit the
truthiness gap in the orchestrator's local-match test. -/
def emptyResponseEntry : KnowledgeEntry :=
  ⟨none, [("hi").toList], [], ("Welcome").toList, none⟩

/-- C4, counterexample: with a knowledge base holding one entry whose
response is the empty string and the query hi, the local matcher finds the
entry (score 100 > 0) and returns its response, yet the orchestrator still
invokes the fallback responder, because the JS truthiness test on the
returned string treats the empty string like no match. -/
theorem C4_counterexample :
    findBestResponse (("hi").toList) [emptyResponseEntry] ≠ none ∧
    calculateScore (normalize (("hi").toList)) emptyResponseEntry.keywords = 100 ∧
    fallbackCallCount (("hi").toList) [emptyResponseEntry] = 1 := by
  decide

/-- C4 (amended): the fallback responder is invoked exactly once when the
local matcher returns none or returns the empty string as the winning
response, and is not invoked otherwise; the orchestrator tests the local
match with JS truthiness, under which the empty string counts as no
match. -/
theorem C4_fallback_iff (text : List Char) (kb : List KnowledgeEntry) :
    fallbackCallCount text kb =
      (if findBestResponse text kb = none ∨ findBestResponse text kb = some []
       then 1 else 0) := by
  cases h : findBestResponse text kb with
  | none => simp [fallbackCallCount, jsTruthyStr, h]
  | some s =>
    cases s with
    | nil => simp [fallbackCallCount, jsTruthyStr, h]
    | cons c cs => simp [fallbackCallCount, jsTruthyStr, h]

/-- C4, witness for the amended statement at a concrete input. -/
theorem C4_witness :
    fallbackCallCount (("zzz").toList) [] =
      (if findBestResponse (("zzz").toList) ([] : List KnowledgeEntry) = none ∨
          findBestResponse (("zzz").toList) ([] : List KnowledgeEntry) = some []
       then 1 else 0) :=
  C4_fallback_iff (("zzz").toList) []

/-- C7: for every knowledge set and every query whose normalization is
empty, the local matcher returns none. -/
theorem C7_empty_query (q : List Char) (K : List KnowledgeEntry)
    (h : normalize q = []) : findBestResponse q K = none :=
  findBestResponse_of_normalize_nil q K h

/-- C7, witness: a punctuation-only query normalizes to the empty string
and matches nothing. -/
theorem C7_witness :
    normalize (("!!!").toList) = [] ∧
    findBestResponse (("!!!").toList)
      [⟨none, [("hello").toList], ("resp").toList, [], none⟩] = none :=
  ⟨by decide,
   C7_empty_query (("!!!").toList)
     [⟨none, [("hello").toList], ("resp").toList, [], none⟩] (by decide)⟩

/-- C8: with no credential available, the fallback responder's text call
resolves successfully (it never throws on this path) with the fixed
degraded reply, which carries the SAD tag as its leading token and directs
the caller to the Settings configuration. -/
theorem C8_unconfigured (outcome : ServiceOutcome) :
    getGeminiResponse false outcome = Except.ok unconfiguredReply ∧
    sadTag.isPrefixOf unconfiguredReply = true ∧
    containsSub (("Settings").toList) unconfiguredReply = true :=
  ⟨rfl, by decide, by decide⟩

/-- C8, witness at a concrete service outcome. -/
theorem C8_witness :
    getGeminiResponse false ServiceOutcome.err = Except.ok unconfiguredReply ∧
    sadTag.isPrefixOf unconfiguredReply = true ∧
    containsSub (("Settings").toList) unconfiguredReply = true :=
  C8_unconfigured ServiceOutcome.err

/-- C9: when the local match is falsy and the fallback call rejects, the
resolved text is the randomly indexed entry of the fixed four-element
apology list, hence one of the four fixed apology strings; no emotion tag
occurs in any of them (so the parser's neutral default applies); and the
index-to-string selection is injective on the four indices, so a uniform
index draw selects uniformly among the four strings. -/
theorem C9_rejection (text : List Char) (kb : List KnowledgeEntry) (r : Nat)
    (hlocal : jsTruthyStr (findBestResponse text kb) = false) (hr : r < 4) :
    resolveUserMessage text kb FallbackResult.rejected r = getRandomDefaultResponse r ∧
    getRandomDefaultResponse r ∈ DEFAULT_RESPONSES ∧
    (∀ tag ∈ [neutralTag, happyTag, sadTag, angryTag, surprisedTag, thinkingTag,
        concernedTag],
      containsSub tag (getRandomDefaultResponse r) = false) ∧
    (∀ r₁ < 4, ∀ r₂ < 4,
      getRandomDefaultResponse r₁ = getRandomDefaultResponse r₂ → r₁ = r₂) := by
  refine ⟨?_, ?_, ?_, by decide⟩
  · simp [resolveUserMessage, hlocal]
  · interval_cases r <;> decide
  · interval_cases r <;> decide

/-- C9, witness at a concrete query, empty knowledge base and index 2. -/
theorem C9_witness :
    resolveUserMessage (("qqq").toList) [] FallbackResult.rejected 2 =
      getRandomDefaultResponse 2 ∧
    getRandomDefaultResponse 2 ∈ DEFAULT_RESPONSES :=
  ⟨(C9_rejection (("qqq").toList) [] 2 (by decide) (by decide)).1,
   (C9_rejection (("qqq").toList) [] 2 (by decide) (by decide)).2.1⟩

/-- C5: for every input whose normalization is non-empty and every entry
sequence, the matcher returns exactly the response of the first entry (in
supplied order) attaining the highest keyword score when that score is
positive, and none when the best score is not positive.  In particular the
entry with the strictly highest score wins, ties keep the earliest entry of
the sequence, and the matcher is a pure function of its arguments, so
repeated calls on the same sequence agree. -/
theorem C5_matcher (userInput : List Char) (K : List KnowledgeEntry)
    (h : normalize userInput ≠ []) :
    findBestResponse userInput K =
      (if 0 < bestScoreOf (normalize userInput) K
       then Option.map KnowledgeEntry.response
         (firstEntryWithScore (normalize userInput) K
           (bestScoreOf (normalize userInput) K))
       else none) := by
  simp only [findBestResponse]
  rw [if_neg h, bestLoop_fst, bestLoop_snd]
  have hmax : Nat.max 0 (bestScoreOf (normalize userInput) K) =
      bestScoreOf (normalize userInput) K := by
    simp
  rw [hmax]
  by_cases h0 : 0 < bestScoreOf (normalize userInput) K
  · rw [if_pos h0, if_pos h0]
  · rw [if_neg h0, if_neg h0]

/-- Two entries scoring identically against the query hi, used to witness
the tie-break. -/
def tieEntryA : KnowledgeEntry := ⟨none, [("hi").toList], ("first").toList, [], none⟩

/-- Second of the two tied entries. -/
def tieEntryB : KnowledgeEntry := ⟨none, [("hi").toList], ("second").toList, [], none⟩

/-- C5, witness: on a base of two entries that tie at score 100 the matcher
returns the response of the entry appearing first. -/
theorem C5_witness :
    normalize (("hi").toList) ≠ [] ∧
    findBestResponse (("hi").toList) [tieEntryA, tieEntryB] =
      (if 0 < bestScoreOf (normalize (("hi").toList)) [tieEntryA, tieEntryB]
       then Option.map KnowledgeEntry.response
         (firstEntryWithScore (normalize (("hi").toList)) [tieEntryA, tieEntryB]
           (bestScoreOf (normalize (("hi").toList)) [tieEntryA, tieEntryB]))
       else none) ∧
    findBestResponse (("hi").toList) [tieEntryA, tieEntryB] = some (("first").toList) :=
  ⟨by decide, C5_matcher (("hi").toList) [tieEntryA, tieEntryB] (by decide), by decide⟩

/-- C6: for every input, the normalized string contains no character
outside the class of lowercase letters, digits, underscore and space,
contains no run of two consecutive spaces, and normalization applied to
its own output is the identity. -/
theorem C6_normalize_properties (s : List Char) :
    (∀ c ∈ normalize s, isNormalOutputChar c = true) ∧
    noDoubleSpace (normalize s) = true ∧
    normalize (normalize s) = normalize s :=
  ⟨normalize_chars s, normalize_noDoubleSpace s, normalize_idempotent s⟩

/-- C6, witness at a concrete mixed-case punctuated input. -/
theorem C6_witness :
    noDoubleSpace (normalize (("Hi,   There!!").toList)) = true ∧
    normalize (normalize (("Hi,   There!!").toList)) =
      normalize (("Hi,   There!!").toList) :=
  ⟨(C6_normalize_properties (("Hi,   There!!").toList)).2.1,
   (C6_normalize_properties (("Hi,   There!!").toList)).2.2⟩

end Aarya
